import Mathlib

/-!
Verification of the fixed-width-field parser library (`pyfwf3`).

This file shallowly embeds the core of `src/pyfwf3/parser.py`:

* `BaseLineParser.__init__` (line slicing against an ordered field map,
  right-trimming, the `_before_parse` rewrite hook),
* `BaseFileParser.__init__` (line-numbered loading with `InvalidLineError`
  skip semantics),
* `BaseFileParser.QuerySet` (`filter`, `exclude`, `order_by`, `values`,
  `unique`, `count`, slicing) together with its `_filter_validators`
  criteria compiler and the `attr_comparisons` dynamic-dispatch closure.

Python values that can appear as record fields or filter operands are
modelled by `PyVal` (strings, ints, bools, lists of scalars, and the
`NotImplemented` sentinel returned by binary dunder comparisons on
type mismatch).  Fallible Python code is modelled with `Except PyErr`.
The embedding follows the semantics of the CPython 3 versions this
library targets; in particular `bool(NotImplemented)` is truthy there.
-/

/-- Scalar Python values (elements of list literals used with `__in`). -/
inductive PyPrim
  | str (s : String)
  | int (n : Int)
  | bool (b : Bool)
deriving DecidableEq, Repr

/-- Python values that the modelled code manipulates: field values, filter
operands, and results of attribute access.  `notImpl` is the
`NotImplemented` sentinel that binary dunder comparisons return on an
unsupported operand type. -/
inductive PyVal
  | str (s : String)
  | int (n : Int)
  | bool (b : Bool)
  | list (xs : List PyPrim)
  | notImpl
deriving DecidableEq, Repr

/-- Exceptions the modelled code can raise. -/
inductive PyErr
  | typeError
  | attributeError
  | valueError
deriving DecidableEq, Repr

def PyPrim.toVal : PyPrim → PyVal
  | .str s => .str s
  | .int n => .int n
  | .bool b => .bool b

/-- Python `==` on the modelled values (total, never raises; `True == 1`
and `False == 0` hold as in Python; values of unrelated types are unequal). -/
def pyEq : PyVal → PyVal → Bool
  | .str a, .str b => a == b
  | .int a, .int b => a == b
  | .bool a, .bool b => a == b
  | .bool a, .int b => (if a then (1 : Int) else 0) == b
  | .int a, .bool b => a == (if b then (1 : Int) else 0)
  | .list xs, .list ys => xs == ys
  | .notImpl, .notImpl => true
  | _, _ => false

/-- Python truthiness (`bool(x)`).  On the CPython versions this library
targets, `bool(NotImplemented)` is `True`. -/
def pyTruthy : PyVal → Bool
  | .str s => !s.isEmpty
  | .int n => n != 0
  | .bool b => b
  | .list xs => !xs.isEmpty
  | .notImpl => true

/-- An attribute of a Python object: a plain (non-callable) value, a
zero-argument bound method (its result is determined by the receiver),
or a one-argument bound method. -/
inductive PyAttr
  | plain (v : PyVal)
  | fn0 (r : PyVal)
  | fn1 (f : PyVal → Except PyErr PyVal)

def dunder (a : String) : String := "__" ++ a ++ "__"

/-- Numeric view used by `int` comparison dunders (Python compares
`bool` with `int` numerically). -/
def numOf : PyVal → Option Int
  | .int n => some n
  | .bool b => some (if b then 1 else 0)
  | _ => none

/-- Strict lexicographic comparison of strings by code point (Python's
string `<`), over character lists so that it is structurally
computable. -/
def charListLt : List Char → List Char → Bool
  | [], [] => false
  | [], _ :: _ => true
  | _ :: _, [] => false
  | a :: as, b :: bs => if a < b then true else if b < a then false else charListLt as bs

/-- Non-strict lexicographic comparison of strings by code point
(Python's string `<=`). -/
def charListLe : List Char → List Char → Bool
  | [], _ => true
  | _ :: _, [] => false
  | a :: as, b :: bs => if a < b then true else if b < a then false else charListLe as bs

/-- The attribute surface of the modelled Python values, as used by
`attr_comparisons`: string predicates/methods and comparison dunders on
`str`, the `real` plain attribute and comparison dunders on `int`.
Comparison dunders return `NotImplemented` on an unsupported operand
type, exactly as in CPython; `startswith`/`endswith` raise `TypeError`
on a non-string argument. -/
def getattr : PyVal → String → Option PyAttr
  | .str s, a =>
    if a = "startswith" then some (.fn1 fun v =>
      match v with
      | .str p => .ok (.bool (p.toList.isPrefixOf s.toList))
      | _ => .error .typeError)
    else if a = "endswith" then some (.fn1 fun v =>
      match v with
      | .str p => .ok (.bool (p.toList.isSuffixOf s.toList))
      | _ => .error .typeError)
    else if a = "isdigit" then some (.fn0 (.bool (!s.isEmpty && s.toList.all Char.isDigit)))
    else if a = "isalpha" then some (.fn0 (.bool (!s.isEmpty && s.toList.all Char.isAlpha)))
    else if a = "__len__" then some (.fn0 (.int s.length))
    else if a = "__gt__" then some (.fn1 fun v =>
      match v with
      | .str t => .ok (.bool (charListLt t.toList s.toList))
      | _ => .ok .notImpl)
    else if a = "__lt__" then some (.fn1 fun v =>
      match v with
      | .str t => .ok (.bool (charListLt s.toList t.toList))
      | _ => .ok .notImpl)
    else if a = "__ge__" then some (.fn1 fun v =>
      match v with
      | .str t => .ok (.bool (charListLe t.toList s.toList))
      | _ => .ok .notImpl)
    else if a = "__le__" then some (.fn1 fun v =>
      match v with
      | .str t => .ok (.bool (charListLe s.toList t.toList))
      | _ => .ok .notImpl)
    else if a = "__eq__" then some (.fn1 fun v =>
      match v with
      | .str t => .ok (.bool (s == t))
      | _ => .ok .notImpl)
    else if a = "__ne__" then some (.fn1 fun v =>
      match v with
      | .str t => .ok (.bool (s != t))
      | _ => .ok .notImpl)
    else none
  | .int n, a =>
    if a = "real" then some (.plain (.int n))
    else if a = "__gt__" then some (.fn1 fun v =>
      match numOf v with
      | some m => .ok (.bool (decide (m < n)))
      | none => .ok .notImpl)
    else if a = "__lt__" then some (.fn1 fun v =>
      match numOf v with
      | some m => .ok (.bool (decide (n < m)))
      | none => .ok .notImpl)
    else if a = "__ge__" then some (.fn1 fun v =>
      match numOf v with
      | some m => .ok (.bool (decide (m ≤ n)))
      | none => .ok .notImpl)
    else if a = "__le__" then some (.fn1 fun v =>
      match numOf v with
      | some m => .ok (.bool (decide (n ≤ m)))
      | none => .ok .notImpl)
    else if a = "__eq__" then some (.fn1 fun v =>
      match numOf v with
      | some m => .ok (.bool (n == m))
      | none => .ok .notImpl)
    else if a = "__ne__" then some (.fn1 fun v =>
      match numOf v with
      | some m => .ok (.bool (n != m))
      | none => .ok .notImpl)
    else none
  | _, _ => none

/-- Substring test over character lists, modelling Python's `in` on
strings. -/
def listInfixB (needle hay : List Char) : Bool :=
  (List.range (hay.length + 1)).any fun i => needle.isPrefixOf (hay.drop i)

/-- Python `obj in value`, as invoked by the `attr == "in"` special case:
membership for list operands, substring test for string operands,
`TypeError` otherwise. -/
def pyIn (obj value : PyVal) : Except PyErr Bool :=
  match value with
  | .list xs => .ok (xs.any fun x => pyEq x.toVal obj)
  | .str t =>
    match obj with
    | .str s => .ok (listInfixB s.toList t.toList)
    | _ => .error .typeError
  | _ => .error .typeError

/-- `attr_comparisons` from `_filter_validators`
(src/pyfwf3/parser.py:124-152), translated clause by clause:
the `in` special case; the bare-name-then-dunder attribute resolution
(`hasattr` probing, letting a miss raise `AttributeError`); for a
callable attribute, `bool(obj_attr(value))` with the `TypeError` branch
falling back to `obj_attr() == value` (which for a one-argument method
raises `TypeError` again, and that one propagates); for a non-callable
attribute, `obj_attr == value`. -/
def attr_comparisons (obj : PyVal) (attr : String) (value : PyVal) : Except PyErr Bool :=
  if attr = "in" then pyIn obj value
  else
    let attr1 := if (getattr obj attr).isNone && (getattr obj (dunder attr)).isSome
                 then dunder attr else attr
    match getattr obj attr1 with
    | none => .error .attributeError
    | some (.plain v) => .ok (pyEq v value)
    | some (.fn0 r) =>
      -- calling a zero-argument method with one argument raises
      -- TypeError, which the source catches and retries as
      -- `obj_attr() == value`
      .ok (pyEq r value)
    | some (.fn1 f) =>
      match f value with
      | .ok r => .ok (pyTruthy r)
      | .error _ =>
        -- the source catches the TypeError and retries `obj_attr()`;
        -- calling a one-argument method with no arguments raises
        -- TypeError, and that second TypeError propagates uncaught
        .error .typeError

/-- A parsed line object: its attribute table, in header order
(field name, field value). -/
abbrev Record := List (String × PyVal)

/-- `line.__getattribute__(field)`: `none` models `AttributeError`. -/
def recGetattr (r : Record) (f : String) : Option PyVal := r.lookup f

/-- One compiled filter criterion, as produced by `_filter_validators`:
either a plain equality test (`operator.eq`) or a deferred
`attr_comparisons` call. -/
inductive Validator
  | eqv (field : String) (value : PyVal)
  | cmp (field : String) (attr : String) (value : PyVal)
deriving DecidableEq, Repr

/-- The `lte→le`, `gte→ge` alias table of `_filter_validators`. -/
def canonAttr (a : String) : String :=
  if a = "lte" then "le" else if a = "gte" then "ge" else a

/-- Python `"__" in field` (substring containment of the separator). -/
def containsDunder : List Char → Bool
  | '_' :: '_' :: _ => true
  | _ :: rest => containsDunder rest
  | [] => false

/-- Python `field.split("__")`: split on every non-overlapping occurrence
of the separator, left to right. -/
def splitDunder : List Char → List (List Char)
  | [] => [[]]
  | '_' :: '_' :: rest => [] :: splitDunder rest
  | c :: rest =>
    match splitDunder rest with
    | [] => [[c]]
    | p :: ps => (c :: p) :: ps

/-- Compile one criteria keyword, following `_filter_validators`
(src/pyfwf3/parser.py:154-165): no separator means `operator.eq`;
otherwise `real_field, field_attr = field.split("__")` (a fatal
`ValueError` unless the split yields exactly two parts), with the
`lte`/`gte` aliases canonicalized. -/
def mkValidator (field : String) (value : PyVal) : Except PyErr Validator :=
  if !containsDunder field.toList then .ok (.eqv field value)
  else
    match splitDunder field.toList with
    | [rf, fa] => .ok (.cmp (String.mk rf) (canonAttr (String.mk fa)) value)
    | _ => .error .valueError

/-- Keyword criteria, in keyword order (Python kwargs preserve order and
have unique keys). -/
abbrev Criteria := List (String × PyVal)

/-- `_filter_validators(keywords)`: compile each criterion in order. -/
def filterValidators : Criteria → Except PyErr (List Validator)
  | [] => .ok []
  | (f, v) :: rest => do
    let hd ← mkValidator f v
    let tl ← filterValidators rest
    .ok (hd :: tl)

/-- Evaluate one validator on a record:
`function(l.__getattribute__(field), *args)`. -/
def evalValidator (r : Record) : Validator → Except PyErr Bool
  | .eqv f v =>
    match recGetattr r f with
    | none => .error .attributeError
    | some x => .ok (pyEq x v)
  | .cmp f a v =>
    match recGetattr r f with
    | none => .error .attributeError
    | some x => attr_comparisons x a v

/-- The inner list comprehension of `filter`/`exclude`: evaluate every
validator on the record (no short-circuiting; the first exception
propagates). -/
def evalList (r : Record) : List Validator → Except PyErr (List Bool)
  | [] => .ok []
  | v :: vs => do
    let b ← evalValidator r v
    let bs ← evalList r vs
    .ok (b :: bs)

/-- The record comprehension of `filter`: keep records for which
`all([...])` holds. -/
def filterEval (vs : List Validator) : List Record → Except PyErr (List Record)
  | [] => .ok []
  | r :: rs => do
    let bs ← evalList r vs
    let rest ← filterEval vs rs
    .ok (if bs.all id then r :: rest else rest)

/-- The record comprehension of `exclude`: keep records for which
`not any([...])` holds. -/
def excludeEval (vs : List Validator) : List Record → Except PyErr (List Record)
  | [] => .ok []
  | r :: rs => do
    let bs ← evalList r vs
    let rest ← excludeEval vs rs
    .ok (if bs.any id then rest else r :: rest)

/-- `QuerySet.filter(**kwargs)` (src/pyfwf3/parser.py:167-212). -/
def filterQ (lines : List Record) (c : Criteria) : Except PyErr (List Record) := do
  let vs ← filterValidators c
  filterEval vs lines

/-- `QuerySet.exclude(**kwargs)` (src/pyfwf3/parser.py:214-227). -/
def excludeQ (lines : List Record) (c : Criteria) : Except PyErr (List Record) := do
  let vs ← filterValidators c
  excludeEval vs lines

/-! ### Line parsing (`BaseLineParser.__init__`, src/pyfwf3/parser.py:40-50) -/

/-- The field map of a `BaseLineParser` variant: ordered
(name, slice start, slice stop) triples; slices in this library use
non-negative bounds. -/
abbrev FieldMap := List (String × Nat × Nat)

/-- Python `line[a:b]` for non-negative bounds: positions past the end of
the string contribute nothing. -/
def pySliceChars (l : List Char) (a b : Nat) : List Char :=
  (l.drop a).take (b - a)

/-- Python `str.rstrip()`: remove trailing whitespace. -/
def pyRstripChars (l : List Char) : List Char :=
  (l.reverse.dropWhile Char.isWhitespace).reverse

/-- One extracted field: `line[v].rstrip()`. -/
def extractField (line : List Char) (a b : Nat) : String :=
  String.mk (pyRstripChars (pySliceChars line a b))

/-- The extraction loop `for k, v in self._map.items(): setattr(k, line[v].rstrip())`:
sets every mapped field, in map order. -/
def parseFields (m : FieldMap) (line : List Char) : Record :=
  m.map fun kv => (kv.1, PyVal.str (extractField line kv.2.1 kv.2.2))

/-- `line = self._parsable_line or self._unparsed_line`: Python `or`
yields the second operand when the first is falsy (`None` or the empty
string).  `parsable = none` models `_parsable_line` left at `None`. -/
def effectiveLine (parsable : Option String) (unparsed : String) : String :=
  match parsable with
  | some s => if s.isEmpty then unparsed else s
  | none => unparsed

/-- `BaseLineParser.__init__` after `_before_parse` has run (the hook is
modelled by the `Option String` it leaves in `_parsable_line`): slice the
effective line at every mapped range, right-trimmed, in map order. -/
def mkLineRecord (m : FieldMap) (pre : String → Option String) (line : String) : Record :=
  parseFields m (effectiveLine (pre line) line).toList

/-! ### File loading (`BaseFileParser.__init__`, src/pyfwf3/parser.py:260-275) -/

/-- Faults during construction of one line record: the sanctioned
`InvalidLineError` skip signal, or any other exception. -/
inductive LoadErr
  | invalidLine
  | fatal
deriving DecidableEq, Repr

/-- The loading loop: `line_number` is incremented for every physical
line; falsy (empty) lines are skipped by `if l:`; `InvalidLineError`
from the line parser skips the line; any other exception aborts the
whole load.  `n` is the number of lines already read. -/
def loadRecords (parse : String → Nat → Except LoadErr Record) :
    List String → Nat → Except LoadErr (List Record)
  | [], _ => .ok []
  | l :: ls, n =>
    let n' := n + 1
    if l.isEmpty then loadRecords parse ls n'
    else
      match parse l n' with
      | .ok r => (loadRecords parse ls n').map (r :: ·)
      | .error .invalidLine => loadRecords parse ls n'
      | .error .fatal => .error .fatal

/-- `BaseFileParser.__init__` on the list of physical lines read from the
file descriptor. -/
def loadFile (parse : String → Nat → Except LoadErr Record) (ls : List String) :
    Except LoadErr (List Record) :=
  loadRecords parse ls 0

/-! ### Projection (`QuerySet.values`, src/pyfwf3/parser.py:103-113) -/

/-- The payload of a `ValuesList`: a flat list of scalars (single-field
projection) or a list of tuples. -/
inductive VLData
  | flat (xs : List PyVal)
  | rows (xss : List (List PyVal))
deriving DecidableEq, Repr

/-- A `ValuesList`: projection data plus the header metadata the shell
representation uses. -/
structure PyValuesList where
  data : VLData
  headers : List String
deriving DecidableEq, Repr

/-- A record's `_headers` (the attribute names, in order). -/
def recHeaders (r : Record) : List String := r.map (·.1)

/-- `tuple([self.__getattribute__(arg) for arg in args])`. -/
def getAttrs (r : Record) : List String → Except PyErr (List PyVal)
  | [] => .ok []
  | a :: rest =>
    match recGetattr r a with
    | none => .error .attributeError
    | some v => (getAttrs r rest).map (v :: ·)

/-- `BaseLineParser._values(*args)`: `args = args or self._headers`. -/
def recValues (r : Record) (args : List String) : Except PyErr (List PyVal) :=
  getAttrs r (if args.isEmpty then recHeaders r else args)

/-- The single-field branch of `values`:
`[l.__getattribute__(args[0]) for l in self.lines]`. -/
def flatVals (a : String) : List Record → Except PyErr (List PyVal)
  | [] => .ok []
  | r :: rs =>
    match recGetattr r a with
    | none => .error .attributeError
    | some v => (flatVals a rs).map (v :: ·)

/-- The multi-field branch of `values`:
`[l._values(*args) for l in self.lines]`. -/
def rowVals (args : List String) : List Record → Except PyErr (List (List PyVal))
  | [] => .ok []
  | r :: rs => do
    let v ← recValues r args
    let vs ← rowVals args rs
    .ok (v :: vs)

/-- `QuerySet.values(*args)`: single-field projections are flat; headers
are `self.lines[0]._headers if data and not args else args` (note the
short-circuit: the first record is only consulted when `data` is
non-empty, which for the `rows` branch forces `lines` non-empty). -/
def valuesQ (lines : List Record) (args : List String) : Except PyErr PyValuesList :=
  if args.length = 1 then
    (flatVals (args.headD "") lines).map fun xs =>
      { data := .flat xs, headers := args }
  else
    (rowVals args lines).map fun xss =>
      { data := .rows xss,
        headers :=
          match xss, args, lines with
          | _ :: _, [], r :: _ => recHeaders r
          | _, _, _ => args }

/-- `QuerySet.unique(*args)`: `list(set(self.values(*args)))`.  The set
is modelled by first-occurrence deduplication (Python leaves the order
unspecified). -/
def uniqueQ (lines : List Record) (args : List String) : Except PyErr VLData :=
  (valuesQ lines args).map fun vl =>
    match vl.data with
    | .flat xs => .flat xs.eraseDups
    | .rows xss => .rows xss.eraseDups

/-! ### Ordering (`QuerySet.order_by`, src/pyfwf3/parser.py:229-233) -/

/-- A total ordering on the modelled values.  Python `sorted` only ever
compares the keys that actually occur, and `order_by` is only defined on
homogeneous keys (heterogeneous keys raise `TypeError`); on homogeneous
string or int keys this relation agrees with Python's `<=`.  The
cross-type cases (ordered by an arbitrary type tag) exist only to make
the relation total, which the merge-sort lemmas need; they are never
observable through `orderBy`. -/
def pyLeB : PyVal → PyVal → Bool
  | .str x, .str y => charListLe x.toList y.toList
  | .str _, _ => true
  | .int _, .str _ => false
  | .int x, .int y => decide (x ≤ y)
  | .int _, _ => true
  | .bool _, .str _ => false
  | .bool _, .int _ => false
  | .bool x, .bool y => !x || y
  | .bool _, _ => true
  | .list _, .str _ => false
  | .list _, .int _ => false
  | .list _, .bool _ => false
  | .list _, .list _ => true
  | .list _, .notImpl => true
  | .notImpl, .notImpl => true
  | .notImpl, _ => false

/-- The comparison `sorted` uses on (record, key) pairs:
`reverse=True` reverses the outcome of key comparisons while staying
stable. -/
def keyedLe (rev : Bool) (p q : Record × PyVal) : Bool :=
  if rev then pyLeB q.2 p.2 else pyLeB p.2 q.2

/-- `key=lambda x: x.__getattribute__(field)` applied to every record
(an `AttributeError` on any record propagates). -/
def getKeys (f : String) : List Record → Except PyErr (List (Record × PyVal))
  | [] => .ok []
  | r :: rs =>
    match recGetattr r f with
    | none => .error .attributeError
    | some v => (getKeys f rs).map ((r, v) :: ·)

/-- All sort keys are of one comparable kind (all strings or all ints);
Python raises `TypeError` when `sorted` compares a heterogeneous pair. -/
def homogKeys : List PyVal → Bool
  | [] => true
  | .str _ :: rest => rest.all fun v => match v with | .str _ => true | _ => false
  | .int _ :: rest => rest.all fun v => match v with | .int _ => true | _ => false
  | _ => false

/-- The comparison as a decidable relation, for `List.insertionSort`. -/
def keyedLeP (rev : Bool) (p q : Record × PyVal) : Prop := keyedLe rev p q = true

instance (rev : Bool) : DecidableRel (keyedLeP rev) :=
  fun p q => inferInstanceAs (Decidable (keyedLe rev p q = true))

/-- `QuerySet.order_by(field, reverse)`: extract every key, then a
stable sort comparing keys, descending when `reverse` is set.  Python's
`sorted` is a stable sort; a stable sort with respect to a total
preorder has a unique result, so it is modelled here by the (stable,
structurally recursive) insertion sort. -/
def orderBy (lines : List Record) (f : String) (rev : Bool) : Except PyErr (List Record) := do
  let pairs ← getKeys f lines
  if homogKeys (pairs.map (·.2)) then
    .ok ((pairs.insertionSort (keyedLeP rev)).map (·.1))
  else .error .typeError

/-! ### The query-surface methods as state transformers

Each `QuerySet` method is translated statement by statement with the
receiver's state (`self.lines`) threaded explicitly: the pair's first
component is the method's return value, the second the receiver's state
after the call. -/

/-- A `QuerySet` object: its backing sequence of records. -/
structure QS where
  lines : List Record
deriving DecidableEq, Repr

def QS.filterOp (self : QS) (c : Criteria) : Except PyErr QS × QS :=
  ((filterQ self.lines c).map QS.mk, self)

def QS.excludeOp (self : QS) (c : Criteria) : Except PyErr QS × QS :=
  ((excludeQ self.lines c).map QS.mk, self)

def QS.orderByOp (self : QS) (f : String) (rev : Bool) : Except PyErr QS × QS :=
  ((orderBy self.lines f rev).map QS.mk, self)

/-- `__getitem__` with a slice argument (non-negative bounds):
`self.new(self.lines[a:b])`. -/
def QS.sliceOp (self : QS) (a b : Nat) : QS × QS :=
  (QS.mk ((self.lines.drop a).take (b - a)), self)

def QS.valuesOp (self : QS) (args : List String) : Except PyErr PyValuesList × QS :=
  (valuesQ self.lines args, self)

def QS.uniqueOp (self : QS) (args : List String) : Except PyErr VLData × QS :=
  (uniqueQ self.lines args, self)

def QS.countOp (self : QS) : Nat × QS :=
  (self.lines.length, self)

/-! ## Criteria-keyword splitting (claim C4) -/

/-- Modelled from the claim's words (not the source): split the keyword at
the FIRST occurrence of the double-underscore separator. -/
def splitFirstDunder : List Char → Option (List Char × List Char)
  | [] => none
  | '_' :: '_' :: rest => some ([], rest)
  | c :: rest => (splitFirstDunder rest).map fun p => (c :: p.1, p.2)

/-- Modelled from the claim's words (not the source): a keyword without
the separator is an equality criterion, otherwise it splits at the first
separator occurrence into field name and operator, with `lte`/`gte`
canonicalized. -/
def mkValidatorSpecC4 (field : String) (value : PyVal) : Validator :=
  match splitFirstDunder field.toList with
  | none => .eqv field value
  | some (rf, fa) => .cmp (String.mk rf) (canonAttr (String.mk fa)) value

/-! ## Specification-side definitions for refinement claims -/

/-- Modelled from the claim's words (claim C3, not the source): resolve
the operator on the field's value by first trying the bare attribute
name and, failing that, the dunder-wrapped name. -/
def resolveAttrSpec (obj : PyVal) (attr : String) : Option PyAttr :=
  match getattr obj attr with
  | some a => some a
  | none => getattr obj (dunder attr)

/-- Modelled from the claim's words (claim C3, not the source): a
callable resolved attribute is called with the supplied value; on a
call-signature mismatch (here: a zero-argument method) the no-argument
call's result is compared for equality against the supplied value
instead (for a one-argument method on a bad operand the retry itself
raises); a non-callable attribute is compared directly for equality. -/
def applyResolvedSpec (a : PyAttr) (value : PyVal) : Except PyErr Bool :=
  match a with
  | .plain v => .ok (pyEq v value)
  | .fn0 r => .ok (pyEq r value)
  | .fn1 f =>
    match f value with
    | .ok r => .ok (pyTruthy r)
    | .error _ => .error .typeError

/-- The claim's description of criterion evaluation, assembled from the
two steps above. -/
def attrComparisonSpec (obj : PyVal) (attr : String) (value : PyVal) : Except PyErr Bool :=
  match resolveAttrSpec obj attr with
  | none => .error .attributeError
  | some a => applyResolvedSpec a value

/-! ## Ordering helpers used to state claim C7 -/

/-- Key comparison lifted to the optional result of attribute lookup. -/
def pyLeOpt : Option PyVal → Option PyVal → Bool
  | some a, some b => pyLeB a b
  | _, _ => false

/-- Strict descending ordering of two records by their keys at field
`f`; holds only when both keys are strings or both are ints (the only key
kinds `orderBy` accepts). -/
def keyGt (f : String) (a b : Record) : Prop :=
  match recGetattr a f, recGetattr b f with
  | some (.str x), some (.str y) => charListLt y.toList x.toList = true
  | some (.int x), some (.int y) => y < x
  | _, _ => False

/-! ## Concrete demonstration data used by the witnesses -/

/-- A line-parser variant whose pre-parse hook rejects lines not
starting with `"US"` (the spec's reject-hook scenario). -/
def demoParse (l : String) (n : Nat) : Except LoadErr Record :=
  if "US".toList.isPrefixOf l.toList then .ok [("line", .str l), ("number", .int n)]
  else .error .invalidLine

def aliceRec : Record := [("name", .str "Alice"), ("age", .str "30")]

def bobRec : Record := [("name", .str "Bob"), ("age", .str "25")]

def amyRec : Record := [("name", .str "Amy"), ("age", .str "30")]

deriving instance DecidableEq for Except

/-! ## Theorems -/

theorem containsDunder_cons (c : Char) (rest : List Char)
    (hpat : ∀ rest1, c = '_' → rest = '_' :: rest1 → False) :
    containsDunder (c :: rest) = containsDunder rest := by
  rw [containsDunder.eq_def]
  split
  · rename_i tail heq
    injection heq with h1 h2
    exact (hpat tail h1 h2).elim
  · rename_i head rest2 heq
    injection heq with h1 h2
    rw [h2]
  · rename_i heq
    simp at heq

theorem splitDunder_cons (c : Char) (rest : List Char)
    (hpat : ∀ rest1, c = '_' → rest = '_' :: rest1 → False)
    (p : List Char) (ps : List (List Char)) (hps : splitDunder rest = p :: ps) :
    splitDunder (c :: rest) = (c :: p) :: ps := by
  rw [splitDunder.eq_def]
  split
  · rename_i heq
    simp at heq
  · rename_i tail heq
    injection heq with h1 h2
    exact (hpat tail h1 h2).elim
  · rename_i c2 rest2 heq
    injection heq with h1 h2
    subst h1 h2
    rw [hps]

theorem splitFirstDunder_cons (c : Char) (rest : List Char)
    (hpat : ∀ rest1, c = '_' → rest = '_' :: rest1 → False) :
    splitFirstDunder (c :: rest) = (splitFirstDunder rest).map fun p => (c :: p.1, p.2) := by
  rw [splitFirstDunder.eq_def]
  split
  · rename_i heq
    simp at heq
  · rename_i tail heq
    injection heq with h1 h2
    exact (hpat tail h1 h2).elim
  · rename_i c2 rest2 heq
    injection heq with h1 h2
    subst h1 h2
    rfl

theorem splitDunder_ne_nil (l : List Char) : splitDunder l ≠ [] := by
  induction l using splitDunder.induct with
  | case1 => simp [splitDunder]
  | case2 rest ih => simp [splitDunder]
  | case3 c rest hpat hnil ih => exact absurd hnil ih
  | case4 c rest hpat p ps hps ih =>
    rw [splitDunder_cons c rest hpat p ps hps]
    simp

theorem splitDunder_of_not_contains (l : List Char) (h : containsDunder l = false) :
    splitDunder l = [l] := by
  induction l using splitDunder.induct with
  | case1 => rfl
  | case2 rest ih => simp [containsDunder] at h
  | case3 c rest hpat hnil ih => exact absurd hnil (splitDunder_ne_nil rest)
  | case4 c rest hpat p ps hps ih =>
    rw [containsDunder_cons c rest hpat] at h
    have h2 := ih h
    rw [hps] at h2
    injection h2 with h1 h2
    rw [splitDunder_cons c rest hpat p ps hps, h1, h2]

theorem two_le_splitDunder_of_contains (l : List Char) (h : containsDunder l = true) :
    2 ≤ (splitDunder l).length := by
  induction l using splitDunder.induct with
  | case1 => simp [containsDunder] at h
  | case2 rest ih =>
    have := splitDunder_ne_nil rest
    have hlen : 1 ≤ (splitDunder rest).length := by
      cases hr : splitDunder rest
      · exact absurd hr this
      · simp
    calc 2 ≤ 1 + (splitDunder rest).length := by omega
    _ = (splitDunder ('_' :: '_' :: rest)).length := by
        rw [show splitDunder ('_' :: '_' :: rest) = [] :: splitDunder rest from rfl]
        simp [Nat.add_comm]
  | case3 c rest hpat hnil ih => exact absurd hnil (splitDunder_ne_nil rest)
  | case4 c rest hpat p ps hps ih =>
    rw [containsDunder_cons c rest hpat] at h
    have h2 := ih h
    rw [hps] at h2
    rw [splitDunder_cons c rest hpat p ps hps]
    simpa using h2

theorem splitDunder_singleton (l x : List Char) (h : splitDunder l = [x]) : x = l := by
  by_cases hc : containsDunder l = true
  · have := two_le_splitDunder_of_contains l hc
    rw [h] at this
    simp at this
  · have := splitDunder_of_not_contains l (by simpa using hc)
    rw [this] at h
    injection h with h1 _
    exact h1.symm

theorem splitFirstDunder_of_split_pair (l : List Char) :
    ∀ a b : List Char, splitDunder l = [a, b] → splitFirstDunder l = some (a, b) := by
  induction l using splitDunder.induct with
  | case1 =>
    intro a b h
    simp [splitDunder] at h
  | case2 rest ih =>
    intro a b h
    rw [show splitDunder ('_' :: '_' :: rest) = [] :: splitDunder rest from rfl] at h
    injection h with h1 h2
    subst h1
    have hb : b = rest := splitDunder_singleton rest b h2
    subst hb
    rfl
  | case3 c rest hpat hnil ih => exact absurd hnil (splitDunder_ne_nil rest)
  | case4 c rest hpat p ps hps ih =>
    intro a b h
    rw [splitDunder_cons c rest hpat p ps hps] at h
    injection h with h1 h2
    subst h1
    subst h2
    rw [splitFirstDunder_cons c rest hpat, ih p b hps]
    rfl
/-- Claim C6 (code bug evaluation): evaluating an ordering operator on a
string field value against an int operand does NOT raise: the dunder
comparison returns `NotImplemented`, whose truthiness makes the
criterion silently evaluate to true. -/
theorem ordering_type_mismatch_silently_true :
    attr_comparisons (.str "20030328") "gt" (.int 20030130) = .ok true ∧
    attr_comparisons (.str "abc") "lt" (.int 5) = .ok true := by
  constructor <;> rfl

/-- Claim C8: `filter`, `exclude`, `order_by`, slicing, `values`,
`unique` and `count` all leave the receiver's backing sequence of
records unchanged, returning their result out of place. -/
theorem queryset_ops_preserve_receiver (qs : QS) (c : Criteria) (f : String)
    (rev : Bool) (a b : Nat) (args : List String) :
    (qs.filterOp c).2 = qs ∧ (qs.excludeOp c).2 = qs ∧
    (qs.orderByOp f rev).2 = qs ∧ (qs.sliceOp a b).2 = qs ∧
    (qs.valuesOp args).2 = qs ∧ (qs.uniqueOp args).2 = qs ∧
    qs.countOp.2 = qs :=
  ⟨rfl, rfl, rfl, rfl, rfl, rfl, rfl⟩

/-- Claim C9: `values()` with no field arguments on an empty collection
returns an empty container with an empty header list and does not
raise, although for a non-empty collection the headers of a no-argument
projection come from the first record. -/
theorem valuesQ_empty_no_args :
    valuesQ ([] : List Record) [] = .ok { data := .rows [], headers := [] } ∧
    ∀ (r : Record) (rs : List Record) (xss : List (List PyVal)),
      rowVals [] (r :: rs) = .ok xss →
      valuesQ (r :: rs) [] = .ok { data := .rows xss, headers := recHeaders r } := by
  constructor
  · rfl
  · intro r rs xss h
    unfold valuesQ
    rw [if_neg (by simp)]
    rw [h]
    cases xss with
    | nil =>
      exfalso
      unfold rowVals at h
      cases h1 : recValues r [] with
      | error e => rw [h1] at h; simp [bind, Except.bind] at h
      | ok v =>
        rw [h1] at h
        cases h2 : rowVals [] rs with
        | error e => rw [h2] at h; simp [bind, Except.bind] at h
        | ok vs => rw [h2] at h; simp [bind, Except.bind] at h
    | cons x xs => rfl

/-- Claim C10: a pre-parse hook that sets the working line text to a
falsy value (the empty string, or leaves it `None`) is ignored and
extraction uses the original unparsed line; a truthy replacement is
used as the extraction source. -/
theorem before_parse_falsy_rewrite_ignored (m : FieldMap) (line : String) :
    mkLineRecord m (fun _ => some "") line = mkLineRecord m (fun _ => none) line ∧
    ∀ s : String, ¬ s.isEmpty → mkLineRecord m (fun _ => some s) line = parseFields m s.toList := by
  constructor
  · rfl
  · intro s hs
    simp only [mkLineRecord, effectiveLine, if_neg hs]

/-- Witness for C10 at a concrete map and line. -/
theorem before_parse_falsy_rewrite_ignored_witness :
    mkLineRecord [("a", 0, 3)] (fun _ => some "") "xyz" =
      mkLineRecord [("a", 0, 3)] (fun _ => none) "xyz" ∧
    mkLineRecord [("a", 0, 3)] (fun _ => some "QRS") "xyz" =
      parseFields [("a", 0, 3)] "QRS".toList :=
  ⟨(before_parse_falsy_rewrite_ignored [("a", 0, 3)] "xyz").1,
   (before_parse_falsy_rewrite_ignored [("a", 0, 3)] "xyz").2 "QRS" (by decide)⟩

/-- Claim C4 counterexample: on the keyword `"a__b__c"` the code raises
`ValueError` (its split on every occurrence yields three parts),
whereas splitting on the first occurrence, as the claim states, would
yield field `"a"` and operator `"b__c"`. -/
theorem mkValidator_first_split_counterexample :
    mkValidator "a__b__c" (.int 1) = .error .valueError ∧
    mkValidatorSpecC4 "a__b__c" (.int 1) = .cmp "a" "b__c" (.int 1) := by
  constructor <;> rfl

/-- Claim C4 (amended): a keyword without the double-underscore
separator is an equality criterion; a keyword the separator splits into
exactly two parts becomes a comparison criterion at that (first and
only) occurrence, with `lte`/`gte` canonicalized to `le`/`ge`; a
keyword with more than one separator occurrence is a fatal
`ValueError`. -/
theorem mkValidator_split_behavior (field : String) (value : PyVal) :
    (containsDunder field.toList = false →
      mkValidator field value = .ok (.eqv field value)) ∧
    (∀ a b : List Char, splitDunder field.toList = [a, b] →
      mkValidator field value = .ok (.cmp (String.mk a) (canonAttr (String.mk b)) value) ∧
      splitFirstDunder field.toList = some (a, b)) ∧
    (2 < (splitDunder field.toList).length →
      mkValidator field value = .error .valueError) ∧
    canonAttr "lte" = "le" ∧ canonAttr "gte" = "ge" := by
  refine ⟨?_, ?_, ?_, rfl, rfl⟩
  · intro h
    unfold mkValidator
    rw [h]
    rfl
  · intro a b h
    have hcon : containsDunder field.toList = true := by
      by_contra hc
      have := splitDunder_of_not_contains field.toList (by simpa using hc)
      rw [this] at h
      simp at h
    refine ⟨?_, splitFirstDunder_of_split_pair field.toList a b h⟩
    unfold mkValidator
    rw [hcon, h]
    rfl
  · intro hlen
    have hcon : containsDunder field.toList = true := by
      by_contra hc
      have := splitDunder_of_not_contains field.toList (by simpa using hc)
      rw [this] at hlen
      simp at hlen
    unfold mkValidator
    rw [hcon]
    cases hs : splitDunder field.toList with
    | nil => exact absurd hs (splitDunder_ne_nil _)
    | cons p ps =>
      cases ps with
      | nil => rw [hs] at hlen; simp at hlen
      | cons q qs =>
        cases qs with
        | nil => rw [hs] at hlen; simp at hlen
        | cons u us => rfl

/-- Witness for the amended C4 at the keyword `"age__lte"`. -/
theorem mkValidator_split_behavior_witness :
    splitDunder "age__lte".toList = ["age".toList, "lte".toList] ∧
    mkValidator "age__lte" (.int 18) = .ok (.cmp "age" "le" (.int 18)) ∧
    splitFirstDunder "age__lte".toList = some ("age".toList, "lte".toList) := by
  have h := (mkValidator_split_behavior "age__lte" (.int 18)).2.1 "age".toList "lte".toList (by decide)
  exact ⟨by decide, h.1, h.2⟩
/-- Claim C3: for a criterion with an operator suffix other than `in`,
the operator resolves on the field's value by first trying the bare
attribute name, then the dunder-wrapped name; a callable resolved
attribute is called with the supplied value (with the signature-mismatch
fallback comparing the no-argument call's result for equality), a
non-callable one is compared directly for equality. -/
theorem attr_comparisons_resolution (obj : PyVal) (attr : String) (value : PyVal)
    (h : attr ≠ "in") :
    attr_comparisons obj attr value = attrComparisonSpec obj attr value := by
  unfold attr_comparisons attrComparisonSpec resolveAttrSpec applyResolvedSpec
  rw [if_neg h]
  cases hb : getattr obj attr with
  | some a => cases a <;> simp [hb]
  | none =>
    cases hd : getattr obj (dunder attr) with
    | some a => cases a <;> simp [hb, hd]
    | none => simp [hb, hd]

/-- Witness for C3 at a concrete string method. -/
theorem attr_comparisons_resolution_witness :
    attr_comparisons (.str "Alice") "startswith" (.str "Al") =
      attrComparisonSpec (.str "Alice") "startswith" (.str "Al") ∧
    attr_comparisons (.str "Alice") "startswith" (.str "Al") = .ok true :=
  ⟨attr_comparisons_resolution (.str "Alice") "startswith" (.str "Al") (by decide), by rfl⟩

/-- `rstrip` removes exactly a trailing run of whitespace: the input is
the output followed by whitespace, and the output has no trailing
whitespace. -/
theorem pyRstripChars_spec (l : List Char) :
    l = pyRstripChars l ++ (l.reverse.takeWhile Char.isWhitespace).reverse ∧
    (∀ c ∈ (l.reverse.takeWhile Char.isWhitespace).reverse, c.isWhitespace) ∧
    ∀ c, (pyRstripChars l).getLast? = some c → ¬ c.isWhitespace := by
  refine ⟨?_, ?_, ?_⟩
  · conv_lhs => rw [← l.reverse_reverse]
    conv_lhs =>
      rw [← List.takeWhile_append_dropWhile Char.isWhitespace l.reverse]
    rw [List.reverse_append]
    rfl
  · intro c hc
    rw [List.mem_reverse] at hc
    exact List.mem_takeWhile_imp hc
  · intro c hc
    rw [pyRstripChars, List.getLast?_reverse] at hc
    have h2 := List.head?_dropWhile_not Char.isWhitespace l.reverse
    rw [hc] at h2
    simp only [Bool.not_eq_true]
    simp at h2
    exact h2

/-- Claim C2: constructing a line record sets each mapped field, in map
order, to the slice of the (possibly hook-rewritten) line at the
field's half-open range with trailing whitespace removed and leading
whitespace preserved; a range falling past the end of the line behaves
as if clamped to the line's length (missing characters contribute
nothing and construction is total). -/
theorem lineRecord_fields_extracted (m : FieldMap) (pre : String → Option String)
    (line : String) (eff : List Char)
    (heff : eff = (effectiveLine (pre line) line).toList) :
    (mkLineRecord m pre line).map Prod.fst = m.map Prod.fst ∧
    ∀ (i : Nat) (name : String) (a b : Nat), m[i]? = some (name, a, b) →
      (mkLineRecord m pre line)[i]? = some (name, .str (extractField eff a b)) ∧
      extractField eff a b = extractField eff a (min b eff.length) ∧
      (eff.length ≤ a → extractField eff a b = "") ∧
      ∃ ws : List Char,
        pySliceChars eff a b = pyRstripChars (pySliceChars eff a b) ++ ws ∧
        (∀ c ∈ ws, c.isWhitespace) ∧
        ∀ c, (pyRstripChars (pySliceChars eff a b)).getLast? = some c → ¬ c.isWhitespace := by
  subst heff
  constructor
  · simp [mkLineRecord, parseFields]
  · intro i name a b hm
    refine ⟨?_, ?_, ?_, ?_⟩
    · simp [mkLineRecord, parseFields, List.getElem?_map, hm]
    · unfold extractField pySliceChars
      rcases Nat.le_total b (effectiveLine (pre line) line).toList.length with hb | hb
      · rw [Nat.min_eq_left hb]
      · rw [Nat.min_eq_right hb]
        have hlen : ((effectiveLine (pre line) line).toList.drop a).length ≤ b - a := by
          rw [List.length_drop]
          omega
        have hlen2 : ((effectiveLine (pre line) line).toList.drop a).length ≤
            (effectiveLine (pre line) line).toList.length - a := by
          rw [List.length_drop]
        rw [List.take_of_length_le hlen, List.take_of_length_le hlen2]
    · intro ha
      unfold extractField pySliceChars
      rw [List.drop_eq_nil_iff.mpr ha, List.take_nil]
      rfl
    · exact ⟨_, (pyRstripChars_spec _).1, (pyRstripChars_spec _).2.1, (pyRstripChars_spec _).2.2⟩

/-- Witness for C2: map `a:[0,3), b:[3,6)` on the short line `"ab"`
yields `a = "ab"` and `b = ""` without fault. -/
theorem lineRecord_fields_extracted_witness :
    (mkLineRecord [("a", 0, 3), ("b", 3, 6)] (fun _ => none) "ab").map Prod.fst = ["a", "b"] ∧
    (mkLineRecord [("a", 0, 3), ("b", 3, 6)] (fun _ => none) "ab")[1]? =
      some ("b", .str "") ∧
    (mkLineRecord [("a", 0, 3), ("b", 3, 6)] (fun _ => none) "ab")[0]? =
      some ("a", .str "ab") := by
  have h := lineRecord_fields_extracted [("a", 0, 3), ("b", 3, 6)] (fun _ => none) "ab"
    "ab".toList rfl
  refine ⟨h.1.trans (by decide), ?_, ?_⟩
  · exact (h.2 1 "b" 3 6 rfl).1.trans (by decide)
  · exact (h.2 0 "a" 0 3 rfl).1.trans (by decide)
/-- When no line raises a fault other than the skip signal, loading from
line-counter `n` yields exactly the accepted records, each line numbered
by its physical position. -/
theorem loadRecords_ok_of_no_fatal (parse : String → Nat → Except LoadErr Record) :
    ∀ (ls : List String) (n : Nat),
      (∀ p ∈ ls.enumFrom n, p.2.isEmpty = false → parse p.2 (p.1 + 1) ≠ .error .fatal) →
      loadRecords parse ls n = .ok ((ls.enumFrom n).filterMap fun p =>
        if p.2.isEmpty then none else (parse p.2 (p.1 + 1)).toOption) := by
  intro ls
  induction ls with
  | nil => intro n h; rfl
  | cons l rest ih =>
    intro n h
    rw [List.enumFrom_cons, List.filterMap_cons]
    unfold loadRecords
    cases hl : l.isEmpty with
    | true =>
      simp only [hl, if_pos rfl]
      exact ih (n + 1) fun p hp => h p (by rw [List.enumFrom_cons]; exact List.mem_cons_of_mem _ hp)
    | false =>
      simp only [hl]
      have hnf : parse l (n + 1) ≠ .error .fatal :=
        h (n, l) (by rw [List.enumFrom_cons]; exact List.mem_cons_self _ _) hl
      have hrest := ih (n + 1) fun p hp => h p (by rw [List.enumFrom_cons]; exact List.mem_cons_of_mem _ hp)
      cases hp : parse l (n + 1) with
      | ok r =>
        simp only [Bool.false_eq_true, if_false, hrest, Except.map, Except.toOption]
      | error e =>
        cases e with
        | invalidLine =>
          simp only [Bool.false_eq_true, if_false, hrest, Except.toOption]
        | fatal => exact absurd hp hnf

/-- Conversely, a successful load means no non-empty line raised a
fault other than the skip signal (any other fault aborts the load). -/
theorem loadRecords_ok_no_fatal (parse : String → Nat → Except LoadErr Record) :
    ∀ (ls : List String) (n : Nat) (rs : List Record),
      loadRecords parse ls n = .ok rs →
      ∀ p ∈ ls.enumFrom n, p.2.isEmpty = false → parse p.2 (p.1 + 1) ≠ .error .fatal := by
  intro ls
  induction ls with
  | nil => intro n rs _ p hp; simp at hp
  | cons l rest ih =>
    intro n rs hok p hp hne
    rw [List.enumFrom_cons] at hp
    unfold loadRecords at hok
    rcases List.mem_cons.mp hp with hp1 | hp2
    · subst hp1
      cases hl : l.isEmpty with
      | true => rw [hne] at hl; exact absurd hl (by simp)
      | false =>
        rw [hl] at hok
        simp only [Bool.false_eq_true, if_false] at hok
        cases hparse : parse l (n + 1) with
        | ok r => intro hcon; simp at hcon
        | error e =>
          cases e with
          | invalidLine => intro hcon; simp at hcon
          | fatal => rw [hparse] at hok; exact absurd hok (by simp)
    · cases hl : l.isEmpty with
      | true =>
        rw [hl] at hok
        simp only [if_pos rfl] at hok
        exact ih (n + 1) rs hok p hp2 hne
      | false =>
        rw [hl] at hok
        simp only [Bool.false_eq_true, if_false] at hok
        cases hparse : parse l (n + 1) with
        | ok r =>
          rw [hparse] at hok
          cases hrest : loadRecords parse rest (n + 1) with
          | ok rs2 => exact ih (n + 1) rs2 hrest p hp2 hne
          | error e => rw [hrest] at hok; exact absurd hok (by simp [Except.map])
        | error e =>
          cases e with
          | invalidLine => rw [hparse] at hok; exact ih (n + 1) rs hok p hp2 hne
          | fatal => rw [hparse] at hok; exact absurd hok (by simp)

/-- Claim C5: file loading numbers lines 1-based counting every physical
line; a line rejected by the skip-line signal is omitted with no record
and no error and does not shift later line numbers; the root collection
holds exactly the accepted records in file order; and a load succeeds
exactly when no line raises any other fault (which aborts the whole
load). -/
theorem loadFile_skip_and_numbering (parse : String → Nat → Except LoadErr Record)
    (ls : List String) :
    ((∀ p ∈ ls.enumFrom 0, p.2.isEmpty = false → parse p.2 (p.1 + 1) ≠ .error .fatal) →
      loadFile parse ls = .ok ((ls.enumFrom 0).filterMap fun p =>
        if p.2.isEmpty then none else (parse p.2 (p.1 + 1)).toOption)) ∧
    ∀ rs, loadFile parse ls = .ok rs →
      ∀ p ∈ ls.enumFrom 0, p.2.isEmpty = false → parse p.2 (p.1 + 1) ≠ .error .fatal :=
  ⟨loadRecords_ok_of_no_fatal parse ls 0,
   fun rs h => loadRecords_ok_no_fatal parse ls 0 rs h⟩

/-- Witness for C5: a parser that rejects non-`"US"` lines keeps lines
1 and 3 with their original 1-based numbers. -/
theorem loadFile_skip_and_numbering_witness :
    loadFile demoParse ["US1", "BR2", "US3"] =
      .ok [[("line", .str "US1"), ("number", .int 1)],
           [("line", .str "US3"), ("number", .int 3)]] :=
  ((loadFile_skip_and_numbering demoParse ["US1", "BR2", "US3"]).1 (by decide)).trans (by decide)
/-- Evaluating the validator list yields one boolean per validator. -/
theorem evalList_length (r : Record) :
    ∀ (vs : List Validator) (bs : List Bool), evalList r vs = .ok bs → bs.length = vs.length := by
  intro vs
  induction vs with
  | nil => intro bs h; injection h with h; rw [← h]; rfl
  | cons v rest ih =>
    intro bs h
    unfold evalList at h
    cases hv : evalValidator r v with
    | error e => rw [hv] at h; simp [Bind.bind, Except.bind] at h
    | ok b =>
      rw [hv] at h
      cases hrest : evalList r rest with
      | error e => rw [hrest] at h; simp [Bind.bind, Except.bind] at h
      | ok bs2 =>
        rw [hrest] at h
        simp only [Bind.bind, Except.bind] at h
        injection h with h
        rw [← h]
        simp [ih bs2 hrest]

/-- `_filter_validators` produces exactly one validator per criterion. -/
theorem filterValidators_length :
    ∀ (c : Criteria) (vs : List Validator), filterValidators c = .ok vs → vs.length = c.length := by
  intro c
  induction c with
  | nil => intro vs h; injection h with h; rw [← h]; rfl
  | cons kv rest ih =>
    intro vs h
    unfold filterValidators at h
    cases hv : mkValidator kv.1 kv.2 with
    | error e => rw [hv] at h; simp [Bind.bind, Except.bind] at h
    | ok v =>
      rw [hv] at h
      cases hrest : filterValidators rest with
      | error e => rw [hrest] at h; simp [Bind.bind, Except.bind] at h
      | ok vs2 =>
        rw [hrest] at h
        simp only [Bind.bind, Except.bind] at h
        injection h with h
        rw [← h]
        simp [ih vs2 hrest]

/-- Every record kept by `filter` evaluated all its validators to true. -/
theorem filterEval_mem (vs : List Validator) :
    ∀ (rs f : List Record), filterEval vs rs = .ok f →
      ∀ r ∈ f, ∃ bs, evalList r vs = .ok bs ∧ bs.all id = true := by
  intro rs
  induction rs with
  | nil =>
    intro f h r hr
    injection h with h
    rw [← h] at hr
    simp at hr
  | cons r0 rest ih =>
    intro f h r hr
    unfold filterEval at h
    cases hb : evalList r0 vs with
    | error e => rw [hb] at h; simp [Bind.bind, Except.bind] at h
    | ok bs =>
      rw [hb] at h
      cases hrest : filterEval vs rest with
      | error e => rw [hrest] at h; simp [Bind.bind, Except.bind] at h
      | ok f2 =>
        rw [hrest] at h
        simp only [Bind.bind, Except.bind] at h
        injection h with h
        rw [← h] at hr
        by_cases hall : bs.all id = true
        · rw [if_pos hall] at hr
          rcases List.mem_cons.mp hr with h1 | h2
          · subst h1; exact ⟨bs, hb, hall⟩
          · exact ih f2 hrest r h2
        · rw [if_neg hall] at hr
          exact ih f2 hrest r hr

/-- `exclude` with a non-empty validator list drops every record whose
validators all evaluated to true. -/
theorem excludeEval_all_true (vs : List Validator) (hvs : vs ≠ []) :
    ∀ (l : List Record), (∀ r ∈ l, ∃ bs, evalList r vs = .ok bs ∧ bs.all id = true) →
      excludeEval vs l = .ok [] := by
  intro l
  induction l with
  | nil => intro _; rfl
  | cons r rest ih =>
    intro h
    obtain ⟨bs, hb, hall⟩ := h r (List.mem_cons_self _ _)
    have hlen := evalList_length r vs bs hb
    have hbs : bs ≠ [] := by
      intro hc
      subst hc
      exact hvs (List.length_eq_zero.mp hlen.symm)
    have hany : bs.any id = true := by
      cases bs with
      | nil => exact absurd rfl hbs
      | cons b bs2 =>
        simp only [List.all_cons, Bool.and_eq_true, id] at hall
        simp [List.any_cons, hall.1]
    unfold excludeEval
    rw [hb]
    simp only [Bind.bind, Except.bind]
    rw [ih fun r2 h2 => h r2 (List.mem_cons_of_mem _ h2)]
    simp [hany]

/-- With a single validator, `filter` and `exclude` partition the
collection. -/
theorem filter_exclude_single (v1 : Validator) :
    ∀ (lines f e : List Record),
      filterEval [v1] lines = .ok f → excludeEval [v1] lines = .ok e →
      (f ++ e).Perm lines := by
  intro lines
  induction lines with
  | nil =>
    intro f e hf he
    injection hf with hf
    injection he with he
    rw [← hf, ← he]
    rfl
  | cons r rest ih =>
    intro f e hf he
    unfold filterEval at hf
    unfold excludeEval at he
    cases hb : evalList r [v1] with
    | error err => rw [hb] at hf; simp [Bind.bind, Except.bind] at hf
    | ok bs =>
      rw [hb] at hf he
      cases hfrest : filterEval [v1] rest with
      | error err => rw [hfrest] at hf; simp [Bind.bind, Except.bind] at hf
      | ok f2 =>
        cases herest : excludeEval [v1] rest with
        | error err => rw [herest] at he; simp [Bind.bind, Except.bind] at he
        | ok e2 =>
          rw [hfrest] at hf
          rw [herest] at he
          simp only [Bind.bind, Except.bind] at hf he
          injection hf with hf
          injection he with he
          have hlen := evalList_length r [v1] bs hb
          have hperm := ih f2 e2 hfrest herest
          cases bs with
          | nil => simp at hlen
          | cons b bs2 =>
            cases bs2 with
            | cons b2 bs3 => simp at hlen
            | nil =>
              cases b with
              | true =>
                have hf2 : f = r :: f2 := by rw [← hf]; rfl
                have he2 : e = e2 := by rw [← he]; rfl
                rw [hf2, he2, List.cons_append]
                exact hperm.cons r
              | false =>
                have hf2 : f = f2 := by rw [← hf]; rfl
                have he2 : e = r :: e2 := by rw [← he]; rfl
                rw [hf2, he2]
                exact List.perm_middle.trans (hperm.cons r)

/-- Claim C1 (amended): for any non-empty criteria,
`filter(**k).exclude(**k)` is empty; and for a single criterion the
records of `filter(**k)` and `exclude(**k)` together are exactly the
original collection (for two or more criteria a record matching some
but not all criteria appears in neither result, so the partition half
fails in general). -/
theorem filterQ_excludeQ_partition (lines : List Record) (c : Criteria) :
    (∀ f, c ≠ [] → filterQ lines c = .ok f → excludeQ f c = .ok []) ∧
    (∀ k v f e, c = [(k, v)] → filterQ lines c = .ok f → excludeQ lines c = .ok e →
      (f ++ e).Perm lines) := by
  constructor
  · intro f hc hf
    unfold filterQ at hf
    cases hvs : filterValidators c with
    | error e => rw [hvs] at hf; simp [Bind.bind, Except.bind] at hf
    | ok vs =>
      rw [hvs] at hf
      simp only [Bind.bind, Except.bind] at hf
      have hvs_ne : vs ≠ [] := by
        intro hnil
        subst hnil
        have := filterValidators_length c [] hvs
        exact hc (List.length_eq_zero.mp this.symm)
      unfold excludeQ
      rw [hvs]
      simp only [Bind.bind, Except.bind]
      exact excludeEval_all_true vs hvs_ne f (filterEval_mem vs lines f hf)
  · intro k v f e hc hf he
    subst hc
    unfold filterQ at hf
    unfold excludeQ at he
    cases hvs : filterValidators [(k, v)] with
    | error err => rw [hvs] at hf; simp [Bind.bind, Except.bind] at hf
    | ok vs =>
      rw [hvs] at hf he
      simp only [Bind.bind, Except.bind] at hf he
      have hlen := filterValidators_length [(k, v)] vs hvs
      cases vs with
      | nil => simp at hlen
      | cons v1 vs2 =>
        cases vs2 with
        | cons v2 vs3 => simp at hlen
        | nil => exact filter_exclude_single v1 lines f e hf he

/-- Claim C1 counterexample: with two criteria of which the single
record matches only one, both `filter` and `exclude` are empty, so
their union cannot rebuild the collection. -/
theorem filterQ_excludeQ_partition_counterexample :
    filterQ [[("a", .int 1), ("b", .int 3)]] [("a", .int 1), ("b", .int 2)] = .ok [] ∧
    excludeQ [[("a", .int 1), ("b", .int 3)]] [("a", .int 1), ("b", .int 2)] = .ok [] ∧
    ¬ (([] ++ [] : List Record).Perm [[("a", .int 1), ("b", .int 3)]]) := by
  refine ⟨by decide, by decide, ?_⟩
  intro h
  have := h.length_eq
  simp at this

/-- Witness for the amended C1 on a concrete two-record collection and
one criterion. -/
theorem filterQ_excludeQ_partition_witness :
    filterQ [aliceRec, bobRec] [("name", .str "Alice")] = .ok [aliceRec] ∧
    excludeQ [aliceRec, bobRec] [("name", .str "Alice")] = .ok [bobRec] ∧
    excludeQ [aliceRec] [("name", .str "Alice")] = .ok [] ∧
    (([aliceRec] ++ [bobRec]).Perm [aliceRec, bobRec]) := by
  have h := filterQ_excludeQ_partition [aliceRec, bobRec] [("name", .str "Alice")]
  refine ⟨by decide, by decide, ?_, ?_⟩
  · exact h.1 [aliceRec] (by decide) (by decide)
  · exact h.2 "name" (.str "Alice") [aliceRec] [bobRec] rfl (by decide) (by decide)
/-- Lexicographic string order: reflexive. -/
theorem charListLe_refl : ∀ l : List Char, charListLe l l = true := by
  intro l
  induction l with
  | nil => rfl
  | cons a as ih =>
    simp only [charListLe]
    rw [if_neg (lt_irrefl a), if_neg (lt_irrefl a)]
    exact ih

/-- Lexicographic string order: total. -/
theorem charListLe_total : ∀ x y : List Char, charListLe x y || charListLe y x := by
  intro x
  induction x with
  | nil => intro y; simp [charListLe]
  | cons a as ih =>
    intro y
    cases y with
    | nil => simp [charListLe]
    | cons b bs =>
      simp only [charListLe]
      by_cases hab : a < b
      · rw [if_pos hab]; simp
      · by_cases hba : b < a
        · rw [if_neg hab, if_pos hba, if_pos hba]; simp
        · have h2 : a = b := le_antisymm (not_lt.mp hba) (not_lt.mp hab)
          subst h2
          rw [if_neg hab, if_neg hba, if_neg hab, if_neg hba]
          exact ih bs

/-- Lexicographic string order: transitive. -/
theorem charListLe_trans : ∀ x y z : List Char,
    charListLe x y = true → charListLe y z = true → charListLe x z = true := by
  intro x
  induction x with
  | nil => intro y z _ _; rfl
  | cons a as ih =>
    intro y z hxy hyz
    cases y with
    | nil => simp [charListLe] at hxy
    | cons b bs =>
      cases z with
      | nil => simp [charListLe] at hyz
      | cons c cs =>
        simp only [charListLe] at hxy hyz ⊢
        by_cases hab : a < b
        · by_cases hbc : b < c
          · rw [if_pos (lt_trans hab hbc)]
          · by_cases hcb : c < b
            · rw [if_neg hbc, if_pos hcb] at hyz
              exact absurd hyz (by simp)
            · have h2 : b = c := le_antisymm (not_lt.mp hcb) (not_lt.mp hbc)
              subst h2
              rw [if_pos hab]
        · by_cases hba : b < a
          · rw [if_neg hab, if_pos hba] at hxy
            exact absurd hxy (by simp)
          · have h2 : a = b := le_antisymm (not_lt.mp hba) (not_lt.mp hab)
            subst h2
            rw [if_neg hab, if_neg hba] at hxy
            by_cases hac : a < c
            · rw [if_pos hac]
            · by_cases hca : c < a
              · rw [if_neg hac, if_pos hca] at hyz
                exact absurd hyz (by simp)
              · rw [if_neg hac, if_neg hca] at hyz ⊢
                exact ih bs cs hxy hyz

/-- Strict lexicographic string order: asymmetric. -/
theorem charListLt_asymm : ∀ x y : List Char,
    charListLt x y = true → charListLt y x = true → False := by
  intro x
  induction x with
  | nil =>
    intro y h1 h2
    cases y with
    | nil => simp [charListLt] at h1
    | cons b bs => simp [charListLt] at h2
  | cons a as ih =>
    intro y h1 h2
    cases y with
    | nil => simp [charListLt] at h1
    | cons b bs =>
      simp only [charListLt] at h1 h2
      by_cases hab : a < b
      · rw [if_neg (lt_asymm hab), if_pos hab] at h2
        exact absurd h2 (by simp)
      · by_cases hba : b < a
        · rw [if_neg hab, if_pos hba] at h1
          exact absurd h1 (by simp)
        · rw [if_neg hab, if_neg hba] at h1
          rw [if_neg hba, if_neg hab] at h2
          exact ih bs h1 h2

/-- Non-strict lexicographic order plus distinctness gives the strict
order. -/
theorem charListLt_of_le_of_ne : ∀ x y : List Char,
    charListLe x y = true → x ≠ y → charListLt x y = true := by
  intro x
  induction x with
  | nil =>
    intro y _ hne
    cases y with
    | nil => exact absurd rfl hne
    | cons b bs => rfl
  | cons a as ih =>
    intro y hle hne
    cases y with
    | nil => simp [charListLe] at hle
    | cons b bs =>
      simp only [charListLe] at hle
      simp only [charListLt]
      by_cases hab : a < b
      · rw [if_pos hab]
      · by_cases hba : b < a
        · rw [if_neg hab, if_pos hba] at hle
          exact absurd hle (by simp)
        · have h2 : a = b := le_antisymm (not_lt.mp hba) (not_lt.mp hab)
          subst h2
          rw [if_neg hab, if_neg hba] at hle ⊢
          exact ih bs hle fun hc => hne (by rw [hc])

/-- The key ordering is reflexive. -/
theorem pyLeB_refl (a : PyVal) : pyLeB a a = true := by
  cases a <;> simp [pyLeB, charListLe_refl]

/-- The key ordering is total. -/
theorem pyLeB_total (a b : PyVal) : pyLeB a b || pyLeB b a := by
  cases a <;> cases b <;> simp [pyLeB] <;> first
    | exact Bool.or_eq_true _ _ |>.mp (charListLe_total _ _)
    | exact le_total _ _
    | (rename_i x y; cases x <;> cases y <;> simp)

/-- The key ordering is transitive. -/
theorem pyLeB_trans (a b c : PyVal) (hab : pyLeB a b) (hbc : pyLeB b c) : pyLeB a c = true := by
  cases a <;> cases b <;> cases c <;> simp_all [pyLeB] <;> first
    | exact charListLe_trans _ _ _ hab hbc
    | exact le_trans hab hbc
    | (rename_i x y z; cases x <;> cases y <;> cases z <;> simp_all)

/-- The record/key comparison used by the sort is total. -/
theorem keyedLe_total (rev : Bool) (p q : Record × PyVal) :
    keyedLe rev p q || keyedLe rev q p := by
  cases rev <;> simp only [keyedLe, if_pos, if_neg] <;> simp <;>
    rcases Bool.or_eq_true _ _ |>.mp (pyLeB_total p.2 q.2) with h | h <;> simp [h]

/-- The record/key comparison used by the sort is transitive. -/
theorem keyedLe_trans (rev : Bool) (p q r : Record × PyVal)
    (hpq : keyedLe rev p q) (hqr : keyedLe rev q r) : keyedLe rev p r = true := by
  cases rev <;> simp only [keyedLe] at * <;> simp at * <;>
    first
      | exact pyLeB_trans _ _ _ hpq hqr
      | exact pyLeB_trans _ _ _ hqr hpq

/-- Totality of the sort relation, in disjunction form. -/
theorem keyedLeP_total_or (rev : Bool) (p q : Record × PyVal) :
    keyedLeP rev p q ∨ keyedLeP rev q p :=
  Bool.or_eq_true _ _ |>.mp (keyedLe_total rev p q)

/-- Key extraction leaves the records unchanged, pairing each with the
value of its sort field. -/
theorem getKeys_spec (f : String) :
    ∀ (lines : List Record) (pairs : List (Record × PyVal)),
      getKeys f lines = .ok pairs →
      pairs.map Prod.fst = lines ∧ ∀ p ∈ pairs, recGetattr p.1 f = some p.2 := by
  intro lines
  induction lines with
  | nil =>
    intro pairs h
    injection h with h
    rw [← h]
    exact ⟨rfl, by simp⟩
  | cons r rest ih =>
    intro pairs h
    unfold getKeys at h
    cases hr : recGetattr r f with
    | none => rw [hr] at h; simp at h
    | some v =>
      rw [hr] at h
      cases hrest : getKeys f rest with
      | error e => rw [hrest] at h; simp [Except.map] at h
      | ok ps =>
        rw [hrest] at h
        simp only [Except.map] at h
        injection h with h
        obtain ⟨ih1, ih2⟩ := ih ps hrest
        rw [← h]
        constructor
        · simp [ih1]
        · intro p hp
          rcases List.mem_cons.mp hp with h1 | h2
          · subst h1; exact hr
          · exact ih2 p h2

/-- A homogeneous key list is all strings or all ints. -/
theorem homogKeys_spec (ks : List PyVal) (h : homogKeys ks = true) :
    (∀ k ∈ ks, ∃ s, k = PyVal.str s) ∨ (∀ k ∈ ks, ∃ n, k = PyVal.int n) := by
  cases ks with
  | nil => left; simp
  | cons k rest =>
    cases k with
    | str s =>
      left
      intro x hx
      rcases List.mem_cons.mp hx with h1 | h2
      · exact ⟨s, h1⟩
      · unfold homogKeys at h
        have := List.all_eq_true.mp h x h2
        cases x <;> simp_all
    | int n =>
      right
      intro x hx
      rcases List.mem_cons.mp hx with h1 | h2
      · exact ⟨n, h1⟩
      · unfold homogKeys at h
        have := List.all_eq_true.mp h x h2
        cases x <;> simp_all
    | bool b => simp [homogKeys] at h
    | list xs => simp [homogKeys] at h
    | notImpl => simp [homogKeys] at h
/-- Claim C7: `order_by(field)` permutes the collection into one sorted
by the field's keys, records with equal keys retaining their relative
original order (stability); and when no two records have equal keys,
`order_by(field, reverse=True)` is exactly the reverse of
`order_by(field)`. -/
theorem orderBy_stable_and_reverse (lines : List Record) (f : String)
    (asc desc : List Record)
    (ha : orderBy lines f false = .ok asc)
    (hd : orderBy lines f true = .ok desc) :
    asc.Perm lines ∧
    asc.Pairwise (fun a b => pyLeOpt (recGetattr a f) (recGetattr b f) = true) ∧
    (∀ v : PyVal, asc.filter (fun r => recGetattr r f == some v) =
      lines.filter (fun r => recGetattr r f == some v)) ∧
    (lines.Pairwise (fun a b => recGetattr a f ≠ recGetattr b f) → desc = asc.reverse) := by
  haveI ht0 : IsTrans (Record × PyVal) (keyedLeP false) :=
    ⟨fun a b c => keyedLe_trans false a b c⟩
  haveI ht1 : IsTrans (Record × PyVal) (keyedLeP true) :=
    ⟨fun a b c => keyedLe_trans true a b c⟩
  haveI hto0 : IsTotal (Record × PyVal) (keyedLeP false) := ⟨keyedLeP_total_or false⟩
  haveI hto1 : IsTotal (Record × PyVal) (keyedLeP true) := ⟨keyedLeP_total_or true⟩
  unfold orderBy at ha hd
  cases hk : getKeys f lines with
  | error e => rw [hk] at ha; simp [Bind.bind, Except.bind] at ha
  | ok pairs =>
    rw [hk] at ha hd
    simp only [Bind.bind, Except.bind] at ha hd
    by_cases hhom : homogKeys (pairs.map (·.2)) = true
    case neg => rw [if_neg hhom] at ha; simp at ha
    rw [if_pos hhom] at ha hd
    injection ha with ha
    injection hd with hd
    obtain ⟨hmap, hkey⟩ := getKeys_spec f lines pairs hk
    have hsortperm : (pairs.insertionSort (keyedLeP false)).Perm pairs :=
      List.perm_insertionSort (keyedLeP false) pairs
    have hsortperm1 : (pairs.insertionSort (keyedLeP true)).Perm pairs :=
      List.perm_insertionSort (keyedLeP true) pairs
    have hascperm : asc.Perm lines := by
      rw [← ha, ← hmap]
      exact hsortperm.map Prod.fst
    have hdescperm : desc.Perm lines := by
      rw [← hd, ← hmap]
      exact hsortperm1.map Prod.fst
    refine ⟨hascperm, ?_, ?_, ?_⟩
    · -- sortedness of asc
      rw [← ha, List.pairwise_map]
      have hs := List.sorted_insertionSort (keyedLeP false) pairs
      refine List.Pairwise.imp_of_mem ?_ hs
      intro p q hp hq hle
      rw [hkey p ((List.mem_insertionSort _).mp hp), hkey q ((List.mem_insertionSort _).mp hq)]
      have hle2 : pyLeB p.2 q.2 = true := hle
      simpa [pyLeOpt] using hle2
    · -- stability
      intro v
      rw [← ha, ← hmap]
      rw [List.filter_map, List.filter_map]
      have hQ : ∀ (l : List (Record × PyVal)), (∀ p ∈ l, recGetattr p.1 f = some p.2) →
          l.filter ((fun r => recGetattr r f == some v) ∘ Prod.fst) =
          l.filter (fun p => p.2 == v) := by
        intro l hl
        apply List.filter_congr
        intro p hp
        simp only [Function.comp_apply, hl p hp]
        rfl
      rw [hQ pairs hkey]
      rw [hQ (pairs.insertionSort (keyedLeP false))
        fun p hp => hkey p ((List.mem_insertionSort _).mp hp)]
      have hA : (pairs.filter (fun p => p.2 == v)).Pairwise (keyedLeP false) := by
        apply List.pairwise_of_forall_mem_list
        intro p hp q hq
        have hpv := (List.mem_filter.mp hp).2
        have hqv := (List.mem_filter.mp hq).2
        rw [beq_iff_eq] at hpv hqv
        show keyedLe false p q = true
        simp [keyedLe, hpv, hqv, pyLeB_refl]
      have hsub : List.Sublist (pairs.filter (fun p => p.2 == v))
          (pairs.insertionSort (keyedLeP false)) :=
        List.sublist_insertionSort hA (List.filter_sublist pairs)
      have hsame : (pairs.filter (fun p => p.2 == v)).filter (fun p => p.2 == v) =
          pairs.filter (fun p => p.2 == v) :=
        List.filter_eq_self.mpr fun p hp => (List.mem_filter.mp hp).2
      have hsub2 : List.Sublist (pairs.filter (fun p => p.2 == v))
          ((pairs.insertionSort (keyedLeP false)).filter (fun p => p.2 == v)) := by
        have h2 := hsub.filter (fun p => p.2 == v)
        rwa [hsame] at h2
      have hlen : ((pairs.insertionSort (keyedLeP false)).filter (fun p => p.2 == v)).length =
          (pairs.filter (fun p => p.2 == v)).length :=
        (hsortperm.filter _).length_eq
      rw [congrArg (List.map Prod.fst) (hsub2.eq_of_length hlen.symm).symm]
    · -- reverse with no ties
      intro hne
      haveI : IsAntisymm Record (keyGt f) := by
        constructor
        intro a b h1 h2
        unfold keyGt at h1 h2
        rcases hga : recGetattr a f with _ | va <;> rw [hga] at h1 h2
        · exact h1.elim
        · rcases hgb : recGetattr b f with _ | vb <;> rw [hgb] at h1 h2
          · cases va <;> exact h1.elim
          · cases va <;> cases vb <;> try exact h1.elim
            · exact (charListLt_asymm _ _ h1 h2).elim
            · exact absurd h2 (not_lt.mpr (le_of_lt h1))
      have hpairsne : pairs.Pairwise (fun p q => p.2 ≠ q.2) := by
        rw [← hmap] at hne
        have h1 := List.pairwise_map.mp hne
        refine h1.imp_of_mem ?_
        intro p q hp hq hne2
        intro hc
        apply hne2
        rw [hkey p hp, hkey q hq, hc]
      have hkind := homogKeys_spec (pairs.map (·.2)) hhom
      have hgt : ∀ p q : Record × PyVal, p ∈ pairs → q ∈ pairs →
          keyedLeP true p q → p.2 ≠ q.2 → keyGt f p.1 q.1 := by
        intro p q hp hq hle hne2
        have hkp := hkey p hp
        have hkq := hkey q hq
        have hle2 : pyLeB q.2 p.2 = true := hle
        rcases hkind with hstr | hint
        · obtain ⟨xs, hxs⟩ := hstr p.2 (List.mem_map_of_mem _ hp)
          obtain ⟨ys, hys⟩ := hstr q.2 (List.mem_map_of_mem _ hq)
          rw [hxs, hys] at hle2 hne2
          unfold keyGt
          rw [hkp, hkq, hxs, hys]
          have hneq : ys ≠ xs := fun hc => hne2 (by rw [hc])
          exact charListLt_of_le_of_ne _ _ (by simpa [pyLeB] using hle2)
            fun hc => hneq (String.ext hc)
        · obtain ⟨xs, hxs⟩ := hint p.2 (List.mem_map_of_mem _ hp)
          obtain ⟨ys, hys⟩ := hint q.2 (List.mem_map_of_mem _ hq)
          rw [hxs, hys] at hle2 hne2
          unfold keyGt
          rw [hkp, hkq, hxs, hys]
          have hneq : ys ≠ xs := fun hc => hne2 (by rw [hc])
          exact lt_of_le_of_ne (by simpa [pyLeB] using hle2) hneq
      have hlt : ∀ p q : Record × PyVal, p ∈ pairs → q ∈ pairs →
          keyedLeP false p q → p.2 ≠ q.2 → keyGt f q.1 p.1 := by
        intro p q hp hq hle hne2
        have hkp := hkey p hp
        have hkq := hkey q hq
        have hle2 : pyLeB p.2 q.2 = true := hle
        rcases hkind with hstr | hint
        · obtain ⟨xs, hxs⟩ := hstr p.2 (List.mem_map_of_mem _ hp)
          obtain ⟨ys, hys⟩ := hstr q.2 (List.mem_map_of_mem _ hq)
          rw [hxs, hys] at hle2 hne2
          unfold keyGt
          rw [hkq, hkp, hxs, hys]
          have hneq : xs ≠ ys := fun hc => hne2 (by rw [hc])
          exact charListLt_of_le_of_ne _ _ (by simpa [pyLeB] using hle2)
            fun hc => hneq (String.ext hc)
        · obtain ⟨xs, hxs⟩ := hint p.2 (List.mem_map_of_mem _ hp)
          obtain ⟨ys, hys⟩ := hint q.2 (List.mem_map_of_mem _ hq)
          rw [hxs, hys] at hle2 hne2
          unfold keyGt
          rw [hkq, hkp, hxs, hys]
          have hneq : xs ≠ ys := fun hc => hne2 (by rw [hc])
          exact lt_of_le_of_ne (by simpa [pyLeB] using hle2) hneq
      have hdsorted : desc.Pairwise (keyGt f) := by
        rw [← hd, List.pairwise_map]
        have h1 := List.sorted_insertionSort (keyedLeP true) pairs
        have h2 : (pairs.insertionSort (keyedLeP true)).Pairwise (fun p q => p.2 ≠ q.2) :=
          (List.Perm.pairwise_iff (fun h => h.symm) hsortperm1).mpr hpairsne
        refine (List.Pairwise.and h1 h2).imp_of_mem ?_
        intro p q hp hq hh
        exact hgt p q ((List.mem_insertionSort _).mp hp) ((List.mem_insertionSort _).mp hq) hh.1 hh.2
      have harsorted : asc.reverse.Pairwise (keyGt f) := by
        rw [List.pairwise_reverse]
        rw [← ha, List.pairwise_map]
        have h1 := List.sorted_insertionSort (keyedLeP false) pairs
        have h2 : (pairs.insertionSort (keyedLeP false)).Pairwise (fun p q => p.2 ≠ q.2) :=
          (List.Perm.pairwise_iff (fun h => h.symm) hsortperm).mpr hpairsne
        refine (List.Pairwise.and h1 h2).imp_of_mem ?_
        intro p q hp hq hh
        exact hlt p q ((List.mem_insertionSort _).mp hp) ((List.mem_insertionSort _).mp hq) hh.1 hh.2
      have hperm2 : desc.Perm asc.reverse :=
        hdescperm.trans (hascperm.symm.trans asc.reverse_perm.symm)
      exact List.eq_of_perm_of_sorted hperm2 hdsorted harsorted

/-- Witness for C7 on three records with distinct name keys. -/
theorem orderBy_stable_and_reverse_witness :
    orderBy [aliceRec, bobRec, amyRec] "name" false = .ok [aliceRec, amyRec, bobRec] ∧
    ([aliceRec, amyRec, bobRec] : List Record).Perm [aliceRec, bobRec, amyRec] ∧
    [bobRec, amyRec, aliceRec] = ([aliceRec, amyRec, bobRec] : List Record).reverse := by
  have h := orderBy_stable_and_reverse [aliceRec, bobRec, amyRec] "name"
    [aliceRec, amyRec, bobRec] [bobRec, amyRec, aliceRec] (by decide) (by decide)
  exact ⟨by decide, h.1, h.2.2.2 (by decide)⟩
/-- Witness for C9: the headers of a non-empty no-argument projection
come from the first record. -/
theorem valuesQ_empty_no_args_witness :
    valuesQ ([] : List Record) [] = .ok { data := .rows [], headers := [] } ∧
    valuesQ [aliceRec] [] =
      .ok { data := .rows [[.str "Alice", .str "30"]], headers := ["name", "age"] } :=
  ⟨valuesQ_empty_no_args.1,
   (valuesQ_empty_no_args.2 aliceRec [] [[.str "Alice", .str "30"]] (by decide)).trans
     (by decide)⟩
